import Mathlib

/-!
Verification development for the GenomicArchive job-processing pipeline.

The definitions below are shallow embeddings of the Python sources:

* `src/Map_Flow.py`        — the SNP map reconciler (duplicate / empty checks,
  size-group lookup, suffix probe, registration);
* `src/Genotype_Map_Flow.py` — the genotype decoder (per-sample buffers,
  allele decoding, call-rate computation);
* `src/upload_file.py`     — the polling job state machine (classification,
  archive scanning, terminal status writes, batch ordering).

Machine integers are modelled as `Nat`/`Int`, Python dictionaries as
functions into `Option`, Python `float` rounding as exact rational
arithmetic with round-half-to-even, and fallible paths as `Option`/`Except`.
-/

namespace GenomicArchive

/-! ### Generic helpers -/

/-- Prefix test on character lists (`needle` starts `hay`). -/
def startsList : List Char → List Char → Bool
  | [], _ => true
  | _ :: _, [] => false
  | a :: as, b :: bs => a == b && startsList as bs

/-- Contiguous-substring test on character lists, the semantics of the
Python expression `needle in hay` for strings. -/
def listContains (needle : List Char) : List Char → Bool
  | [] => needle.isEmpty
  | b :: bs => startsList needle (b :: bs) || listContains needle bs

theorem startsList_self (l : List Char) : startsList l l = true := by
  induction l with
  | nil => rfl
  | cons a as ih => simp [startsList, ih]

theorem listContains_self (l : List Char) : listContains l l = true := by
  cases l with
  | nil => rfl
  | cons a as => simp [listContains, startsList_self]

/-! ### SNP map reconciler (`src/Map_Flow.py`)

The script reads the new map's SNP names into `snp_newmap`, rejects
duplicate names (line 236-242) and blank names (line 245-253), loads the
registry of existing maps (line 261-262), looks for a size group with
`str(len(snp_newmap)) in str(key)` (line 274-278), and either registers a
brand-new map named `"{n}_a"` (line 353-387) or probes suffixed names
`"{K}_a", "{K}_b", …` comparing SNP contents by an inner merge
(line 280-352). The outcome is printed as a flag character; we model the
flags as a `Decision`. -/

/-- Why a map load was refused (the script prints flag `A` for both). -/
inductive RejectReason
  | duplicateNames
  | emptyNames
  deriving Repr, DecidableEq

/-- Terminal decision of one `Map_Flow.py` run.  `matchesExisting` is the
flag-`D` branch, `newVariant` the flag-`F` branch (map with matching size
group but new content), `brandNew` the flag-`E` branch. -/
inductive Decision
  | rejected (r : RejectReason)
  | matchesExisting (m : String)
  | newVariant (m : String)
  | brandNew (m : String)
  deriving Repr, DecidableEq

/-- One row of the map registry `GEN.Mappe` together with the SNP names
stored in the per-map table `GEN.[Map_Name]`.  The registry's `Map_Alias`
column is carried by the real table but never read by the reconciler's
decision logic, so it is not modelled. -/
structure MapEntry where
  name : String
  numberSnp : Nat
  snps : List String
  deriving Repr, DecidableEq

/-- Row count of the pandas inner merge of two one-column frames
(`pd.merge(snpmap, snp_newmap, on='SNP_Name', how="inner")`,
Map_Flow.py line 304): every row of `xs` is paired with every equal row
of `ys`. -/
def mergeLen (xs ys : List String) : Nat :=
  (xs.map fun x => ys.count x).sum

/-- The content test of Map_Flow.py line 308:
`len(controlle) == len(snp_newmap) and len(controlle) == len(snpmap)`. -/
def interEq (existing news : List String) : Bool :=
  mergeLen existing news == news.length && mergeLen existing news == existing.length

/-- The size-group test of Map_Flow.py line 275:
`str(len(snp_newmap)) in str(key)` — a *substring* test, not equality. -/
def sizeMatches (n k : Nat) : Bool :=
  listContains (toString n).toList (toString k).toList

/-- `chr(ord(suffix) + 1)` (Map_Flow.py line 318). -/
def nextSuffix (c : Char) : Char := Char.ofNat (c.toNat + 1)

/-- Candidate map name `f'{Number_snp}_{suffix}'` (Map_Flow.py line 293/319). -/
def walkName (K : Nat) (c : Char) : String := s!"{K}_{c}"

/-- Duplicate-name check of Map_Flow.py lines 236-238: the frame is
deduplicated and the lengths compared. -/
def hasDuplicates (l : List String) : Bool := l.length != l.dedup.length

/-- Blank-name check of Map_Flow.py lines 245-249: rows with
`SNP_Name == ''` are dropped and the lengths compared. -/
def hasEmpties (l : List String) : Bool :=
  !(l.filter fun s => s == "").isEmpty

/-- The suffix-probe `while` loop of Map_Flow.py lines 296-319.  Each pass
looks the candidate name up in the registry; a hit is compared by content
(`interEq`), a miss ends the walk with a fresh name (the flag-`F`
registration branch).  The loop visits pairwise distinct names, so
`reg.length + 1` fuel always suffices; running out yields `none`. -/
def suffixWalk (reg : List MapEntry) (news : List String) (K : Nat) :
    Nat → String → Char → Option Decision
  | 0, _, _ => none
  | fuel + 1, mappa, suffix =>
    match reg.find? (fun e => e.name == mappa) with
    | some e =>
      if interEq e.snps news then some (.matchesExisting mappa)
      else suffixWalk reg news K fuel (walkName K (nextSuffix suffix)) (nextSuffix suffix)
    | none => some (.newVariant mappa)

/-- One run of the reconciler of `src/Map_Flow.py` over the already-parsed
SNP-name list.  `nomeMap` is the ambient parameter `P.Nome_Map` (the map
file's name), which line 290 compares against the historical exception
`'554_ICAR'`.  The brand-new map name `f"{len(snp_newmap)}_a"` of line 360
is written `walkName n 'a'`, the same string. -/
def reconcile (nomeMap : String) (news : List String) (reg : List MapEntry) :
    Option Decision :=
  if hasDuplicates news then some (.rejected .duplicateNames)
  else if hasEmpties news then some (.rejected .emptyNames)
  else
    let n := news.length
    match reg.find? (fun e => sizeMatches n e.numberSnp) with
    | none => some (.brandNew (walkName n 'a'))
    | some e =>
      let K := e.numberSnp
      let start := if nomeMap == "554_ICAR" then nomeMap else walkName K 'a'
      suffixWalk reg news K (reg.length + 1) start 'a'

/-- The name under which a decision registers a new map, if any
(both the flag-`E` and the flag-`F` branches insert a registry row and a
per-map SNP table). -/
def registeredName : Option Decision → Option String
  | some (.brandNew m) => some m
  | some (.newVariant m) => some m
  | _ => none

/-- Registry contents after one run: the registering branches insert a row
`(Map_Name, len(snp_newmap), …)` plus the SNP rows (Map_Flow.py
lines 324-342 and 359-377). -/
def reconcileRegistry (nomeMap : String) (news : List String)
    (reg : List MapEntry) : List MapEntry :=
  match registeredName (reconcile nomeMap news reg) with
  | some m => reg ++ [⟨m, news.length, news⟩]
  | none => reg

/-! ### Reconciler lemmas -/

theorem nodup_of_not_hasDuplicates (l : List String) (h : hasDuplicates l = false) :
    l.Nodup := by
  unfold hasDuplicates at h
  rw [bne_eq_false_iff_eq] at h
  exact List.dedup_eq_self.mp ((List.dedup_sublist l).eq_of_length h.symm)

theorem sum_count_map (l ys : List String) (h : ∀ x ∈ l, ys.count x = 1) :
    (l.map fun x => ys.count x).sum = l.length := by
  induction l with
  | nil => rfl
  | cons a as ih =>
    have h1 : ys.count a = 1 := h a (List.mem_cons_self a as)
    have h2 : ∀ x ∈ as, ys.count x = 1 := fun x hx => h x (List.mem_cons_of_mem a hx)
    simp only [List.map_cons, List.sum_cons, h1, ih h2, List.length_cons]
    omega

theorem mergeLen_self (l : List String) (h : l.Nodup) : mergeLen l l = l.length := by
  unfold mergeLen
  exact sum_count_map l l fun x hx => List.count_eq_one_of_mem h hx

theorem interEq_self (l : List String) (h : l.Nodup) : interEq l l = true := by
  simp [interEq, mergeLen_self l h]

theorem sizeMatches_self (n : Nat) : sizeMatches n n = true := by
  simp [sizeMatches, listContains_self]

/-- Replaying the suffix probe after the unmatched map has been registered:
the walk traverses the same existing names, reaches the freshly inserted
name, and now finds identical content there. -/
theorem suffixWalk_extend (reg : List MapEntry) (news : List String) (K : Nat)
    (m : String) (hnd : news.Nodup) :
    ∀ (fuel : Nat) (mappa : String) (suffix : Char),
      suffixWalk reg news K fuel mappa suffix = some (.newVariant m) →
      suffixWalk (reg ++ [⟨m, news.length, news⟩]) news K (fuel + 1) mappa suffix
        = some (.matchesExisting m) := by
  intro fuel
  induction fuel with
  | zero =>
    intro mappa suffix h
    simp [suffixWalk] at h
  | succ fuel ih =>
    intro mappa suffix h
    rw [suffixWalk] at h
    split at h
    · rename_i e hfind
      by_cases hie : interEq e.snps news = true
      · rw [if_pos hie] at h
        exact absurd h (by simp)
      · rw [if_neg hie] at h
        rw [suffixWalk, List.find?_append, hfind, Option.or_some]
        simp only [hie, if_false, ite_false]
        exact ih _ _ h
    · rename_i hfind
      have hm : mappa = m := by simpa using h
      subst hm
      rw [suffixWalk, List.find?_append, hfind, Option.none_or]
      simp [List.find?, interEq_self news hnd]

theorem suffixWalk_ne_brandNew (reg : List MapEntry) (news : List String) (K : Nat) :
    ∀ (fuel : Nat) (mappa : String) (suffix : Char) (x : String),
      suffixWalk reg news K fuel mappa suffix ≠ some (.brandNew x) := by
  intro fuel
  induction fuel with
  | zero =>
    intro mappa suffix x h
    simp [suffixWalk] at h
  | succ fuel ih =>
    intro mappa suffix x h
    rw [suffixWalk] at h
    split at h
    · rename_i e hfind
      by_cases hie : interEq e.snps news = true
      · rw [if_pos hie] at h
        exact absurd h (by simp)
      · rw [if_neg hie] at h
        exact ih _ _ _ h
    · exact absurd h (by simp)

/-- Amended C9: when the map-file name is not the special-cased
`'554_ICAR'` and the name the first run registers is fresh in the
registry, a second run with the same SNP names against the updated
registry reaches the freshly registered map and reports a match. -/
theorem reconcile_idempotent_second_run_matches
    (nomeMap : String) (news : List String) (reg : List MapEntry) (m : String)
    (hspecial : nomeMap ≠ "554_ICAR")
    (hreg : registeredName (reconcile nomeMap news reg) = some m)
    (hfresh : ∀ e ∈ reg, e.name ≠ m) :
    reconcile nomeMap news (reconcileRegistry nomeMap news reg)
      = some (.matchesExisting m) := by
  have hrr : reconcileRegistry nomeMap news reg = reg ++ [⟨m, news.length, news⟩] := by
    unfold reconcileRegistry
    rw [hreg]
  have hbeq : (nomeMap == "554_ICAR") = false := by
    simp [hspecial]
  cases hdup : hasDuplicates news with
  | true =>
    exfalso
    unfold reconcile at hreg
    rw [hdup] at hreg
    simp [registeredName] at hreg
  | false =>
  cases hemp : hasEmpties news with
  | true =>
    exfalso
    unfold reconcile at hreg
    rw [hdup, hemp] at hreg
    simp [registeredName] at hreg
  | false =>
  have hnd : news.Nodup := nodup_of_not_hasDuplicates news hdup
  have hfnone : List.find? (fun e => e.name == m) reg = none :=
    List.find?_eq_none.mpr fun e he => by simp [hfresh e he]
  unfold reconcile at hreg
  rw [hdup, hemp] at hreg
  simp only [Bool.false_eq_true, if_false, ite_false] at hreg
  rw [hrr]
  unfold reconcile
  rw [hdup, hemp]
  simp only [Bool.false_eq_true, if_false, ite_false]
  cases hfind : reg.find? (fun e => sizeMatches news.length e.numberSnp) with
  | none =>
    rw [hfind] at hreg
    simp only [registeredName, Option.some.injEq] at hreg
    rw [List.find?_append, hfind, Option.none_or]
    simp only [List.find?, sizeMatches_self, Option.or_some]
    rw [hbeq]
    simp only [Bool.false_eq_true, if_false, ite_false]
    rw [hreg, suffixWalk, List.find?_append, hfnone, Option.none_or]
    simp [List.find?, interEq_self news hnd]
  | some e =>
    rw [hfind] at hreg
    simp only [hbeq, Bool.false_eq_true, if_false, ite_false] at hreg
    rw [List.find?_append, hfind, Option.or_some]
    simp only [hbeq, Bool.false_eq_true, if_false, ite_false]
    cases hw : suffixWalk reg news e.numberSnp (reg.length + 1) (walkName e.numberSnp 'a') 'a' with
    | none =>
      rw [hw] at hreg
      simp [registeredName] at hreg
    | some d =>
      rw [hw] at hreg
      cases d with
      | rejected r => simp [registeredName] at hreg
      | matchesExisting x => simp [registeredName] at hreg
      | brandNew x => exact absurd hw (suffixWalk_ne_brandNew reg news e.numberSnp _ _ _ _)
      | newVariant x =>
        simp only [registeredName, Option.some.injEq] at hreg
        subst hreg
        have hlen : (reg ++ [MapEntry.mk x news.length news]).length + 1
            = reg.length + 1 + 1 := by simp
        rw [hlen]
        exact suffixWalk_extend reg news e.numberSnp x hnd (reg.length + 1) _ _ hw

/-! ### Claims C1, C2, C9 -/

/-- C1: the size-group lookup of Map_Flow.py line 275 is the Python
substring test `str(len(snp_newmap)) in str(key)`, not count equality.
With one new SNP and a registry whose only map has 12 SNPs, no existing
map has count 1, yet the script enters the size-group branch (because
`"1"` is a substring of `"12"`) and registers `NewVariant "12_b"` instead
of the claimed `BrandNew "1_a"`. -/
theorem reconcile_substring_sizeGroup_not_brandNew :
    (([⟨"12_a", 12, ["s1", "s2", "s3", "s4", "s5", "s6", "s7", "s8", "s9",
        "s10", "s11", "s12"]⟩] : List MapEntry).find? fun e => e.numberSnp == 1)
      = none ∧
    reconcile "MAP_f" ["A"]
      [⟨"12_a", 12, ["s1", "s2", "s3", "s4", "s5", "s6", "s7", "s8", "s9",
        "s10", "s11", "s12"]⟩]
      = some (.newVariant "12_b") := by
  constructor
  · decide
  · decide

/-- C2 counterexample: `["rs1", "RS1"]` is a duplicate pair under
case-normalized comparison, yet the duplicate check of Map_Flow.py
line 236 compares raw strings, so the run is not rejected — it registers
a brand-new map. -/
theorem reconcile_case_duplicates_not_rejected :
    "rs1".toList.map Char.toUpper = "RS1".toList.map Char.toUpper ∧
    reconcile "MAP_x" ["rs1", "RS1"] [] = some (.brandNew "2_a") := by
  constructor
  · decide
  · decide

/-- Amended C2: for every SNP-name sequence with at least one duplicate
under *exact* comparison, and every registry, the reconciler rejects with
`DuplicateNames`; the check precedes the blank-name check and never
consults the registry. -/
theorem reconcile_exact_duplicates_rejected
    (nomeMap : String) (news : List String) (reg : List MapEntry)
    (h : hasDuplicates news = true) :
    reconcile nomeMap news reg = some (.rejected .duplicateNames) := by
  unfold reconcile
  rw [h]
  simp

theorem reconcile_exact_duplicates_rejected_witness :
    hasDuplicates ["rs1", "rs1", ""] = true ∧
    reconcile "MAP_x" ["rs1", "rs1", ""] [⟨"3_a", 3, ["a", "b", "c"]⟩]
      = some (.rejected .duplicateNames) :=
  ⟨by decide, reconcile_exact_duplicates_rejected "MAP_x" ["rs1", "rs1", ""]
    [⟨"3_a", 3, ["a", "b", "c"]⟩] (by decide)⟩

/-- C9 counterexample: with the map file named `'554_ICAR'`, a first run
on an empty registry registers `"1_a"`, but the second run starts its
suffix probe at the special name `'554_ICAR'` (Map_Flow.py line 290),
never visits `"1_a"`, and registers a second map with identical content
instead of reporting a match. -/
theorem reconcile_idempotence_fails_554_ICAR :
    registeredName (reconcile "554_ICAR" ["X"] []) = some "1_a" ∧
    reconcile "554_ICAR" ["X"] (reconcileRegistry "554_ICAR" ["X"] [])
      = some (.newVariant "554_ICAR") := by
  constructor
  · decide
  · decide

theorem reconcile_idempotent_witness :
    ("MAP_f" : String) ≠ "554_ICAR" ∧
    registeredName (reconcile "MAP_f" ["X"] []) = some "1_a" ∧
    reconcile "MAP_f" ["X"] (reconcileRegistry "MAP_f" ["X"] [])
      = some (.matchesExisting "1_a") :=
  ⟨by decide, by decide,
    reconcile_idempotent_second_run_matches "MAP_f" ["X"] [] "1_a"
      (by decide) (by decide) (by decide)⟩

/-! ### Genotype decoder (`src/Genotype_Map_Flow.py`)

Lines 185-196 uppercase the resolved map's SNP names and build the
dictionary `snpmap : SNP_Name → Sequence_no` (0-based row index; on
duplicate uppercased names pandas `to_dict` keeps the last row) with
`nSnp = len(snpmap)`.  Lines 203-229 walk the data rows: the SNP name is
uppercased and collected, the sample's buffer (length `nSnp`, filled with
the missing code `'5'`) is created on first sight, the two allele tokens
are validated (a failed validation only increments a warning counter),
and `decode_genotype[A1 + A2]` is written at the SNP's position; a
`KeyError` from either dictionary lookup lands in the same handler, which
records the name in `snp_finalrep_not`.  Lines 231-247 compute, per
sample, `callrate = round((buffer != '5').sum() / len(buffer), 4)` and the
concatenated genotype string.  The decode table is modelled as
`String → Option Char`: the buffer is a numpy `'<U1'` array, so each
stored code is a single character.  Python `round` on these exact
fractions is round-half-to-even, modelled over `ℚ`. -/

/-- One parsed data row of a final-report file. -/
structure Row where
  snpName : String
  sampleId : String
  a1 : String
  a2 : String
  deriving Repr, DecidableEq

/-- ASCII uppercasing of `str.upper()` (SNP names are ASCII). -/
def upperKey (s : String) : String := ⟨s.data.map Char.toUpper⟩

/-- Index of the *last* occurrence, the semantics of building a pandas
dictionary from a column with `to_dict` (later duplicate keys overwrite
earlier ones, Genotype_Map_Flow.py lines 188-192). -/
def lastIdx : List String → String → Option Nat
  | [], _ => none
  | x :: xs, s =>
    match lastIdx xs s with
    | some i => some (i + 1)
    | none => if x == s then some 0 else none

/-- The dictionary `snpmap` of Genotype_Map_Flow.py line 192. -/
def snpIndexOf (names : List String) (s : String) : Option Nat :=
  lastIdx (names.map upperKey) s

/-- `nSnp = len(snpmap)` (line 193): the number of distinct uppercased
names. -/
def nSnpOf (names : List String) : Nat := (names.map upperKey).dedup.length

/-- The missing-genotype code `'5'` of line 214. -/
def missingCode : Char := '5'

/-- Decoder state: the `genotypes` dictionary, the `snp_finalrep` and
`snp_finalrep_not` sets, and the two allele warning counters. -/
structure GState where
  geno : String → Option (List Char)
  rep : List String
  repNot : List String
  allele1Count : Nat
  allele2Count : Nat

/-- Python `set.add`. -/
def insertNew (l : List String) (s : String) : List String :=
  if s ∈ l then l else s :: l

/-- Dictionary update `genotypes[sample] = v`. -/
def updateFn (f : String → Option (List Char)) (k : String) (v : List Char) :
    String → Option (List Char) :=
  fun x => if x = k then some v else f x

/-- Processing of one data row, Genotype_Map_Flow.py lines 209-227. -/
def gstep (names : List String) (table : String → Option Char)
    (s : GState) (r : Row) : GState :=
  let snpname := upperKey r.snpName
  let rep := insertNew s.rep snpname
  let buf := (s.geno r.sampleId).getD (List.replicate (nSnpOf names) missingCode)
  let a1c := if r.a1 = "A" ∨ r.a1 = "B" ∨ r.a1 = "-" then s.allele1Count
             else s.allele1Count + 1
  let a2c := if r.a2 = "A" ∨ r.a2 = "B" ∨ r.a2 = "-" then s.allele2Count
             else s.allele2Count + 1
  match snpIndexOf names snpname with
  | none =>
    { geno := updateFn s.geno r.sampleId buf, rep := rep,
      repNot := insertNew s.repNot snpname,
      allele1Count := a1c, allele2Count := a2c }
  | some pos =>
    match table (r.a1 ++ r.a2) with
    | none =>
      { geno := updateFn s.geno r.sampleId buf, rep := rep,
        repNot := insertNew s.repNot snpname,
        allele1Count := a1c, allele2Count := a2c }
    | some c =>
      { geno := updateFn s.geno r.sampleId (buf.set pos c), rep := rep,
        repNot := s.repNot,
        allele1Count := a1c, allele2Count := a2c }

/-- State before the row loop (lines 194-196). -/
def initGState : GState :=
  { geno := fun _ => none, rep := [], repNot := [],
    allele1Count := 0, allele2Count := 0 }

/-- The whole row loop. -/
def decodeRows (names : List String) (table : String → Option Char)
    (rows : List Row) : GState :=
  rows.foldl (gstep names table) initGState

/-- Round-half-to-even to an integer, the tie rule of Python `round`
applied to our exact fractions. -/
def roundHalfEven (q : ℚ) : ℤ :=
  if q - (⌊q⌋ : ℚ) < 1 / 2 then ⌊q⌋
  else if 1 / 2 < q - (⌊q⌋ : ℚ) then ⌊q⌋ + 1
  else if ⌊q⌋ % 2 = 0 then ⌊q⌋ else ⌊q⌋ + 1

/-- `round(x, 4)` of Genotype_Map_Flow.py line 234. -/
def round4 (q : ℚ) : ℚ := (roundHalfEven (q * 10000) : ℚ) / 10000

/-- `round((genotypes[sample] != '5').sum() / len(genotypes[sample]), 4)`. -/
def callRateOf (buf : List Char) : ℚ :=
  round4 ((buf.countP fun c => c != missingCode : ℚ) / (buf.length : ℚ))

/-- One staged result row (`Campione`, `CallRate`, `Genotipo`), lines
231-247. -/
structure GenotypeRecord where
  campione : String
  callRate : ℚ
  genotipo : String

/-- The record produced for a sample after the row loop. -/
def recordsOf (st : GState) (sample : String) : Option GenotypeRecord :=
  (st.geno sample).map fun buf => ⟨sample, callRateOf buf, ⟨buf⟩⟩

/-! ### Decoder lemmas -/

theorem lastIdx_lt (l : List String) (s : String) :
    ∀ i, lastIdx l s = some i → i < l.length := by
  induction l with
  | nil => intro i h; simp [lastIdx] at h
  | cons x xs ih =>
    intro i h
    rw [lastIdx] at h
    cases hx : lastIdx xs s with
    | some j =>
      rw [hx] at h
      cases h
      have := ih j hx
      simp [List.length_cons]
      omega
    | none =>
      rw [hx] at h
      by_cases hxs : (x == s) = true
      · rw [if_pos hxs] at h
        cases h
        simp
      · rw [if_neg hxs] at h
        cases h

theorem lastIdx_getElem (l : List String) (s : String) :
    ∀ i, lastIdx l s = some i → l[i]? = some s := by
  induction l with
  | nil => intro i h; simp [lastIdx] at h
  | cons x xs ih =>
    intro i h
    rw [lastIdx] at h
    cases hx : lastIdx xs s with
    | some j =>
      rw [hx] at h
      cases h
      simpa using ih j hx
    | none =>
      rw [hx] at h
      by_cases hxs : (x == s) = true
      · rw [if_pos hxs] at h
        cases h
        simp [eq_of_beq hxs]
      · rw [if_neg hxs] at h
        cases h

theorem lastIdx_inj (l : List String) (s₁ s₂ : String) (i : Nat)
    (h₁ : lastIdx l s₁ = some i) (h₂ : lastIdx l s₂ = some i) : s₁ = s₂ := by
  have g₁ := lastIdx_getElem l s₁ i h₁
  have g₂ := lastIdx_getElem l s₂ i h₂
  rw [g₁] at g₂
  exact (Option.some.injEq _ _ ▸ g₂)

theorem nSnpOf_eq_length (names : List String)
    (hnd : (names.map upperKey).Nodup) : nSnpOf names = names.length := by
  unfold nSnpOf
  rw [List.dedup_eq_self.mpr hnd, List.length_map]

theorem snpIndexOf_lt (names : List String) (s : String) (i : Nat)
    (h : snpIndexOf names s = some i) (hnd : (names.map upperKey).Nodup) :
    i < nSnpOf names := by
  have := lastIdx_lt (names.map upperKey) s i h
  rw [nSnpOf_eq_length names hnd]
  simpa using this

/-- All live buffers have the fixed width `n`. -/
def BufLen (n : Nat) (st : GState) : Prop :=
  ∀ smp b, st.geno smp = some b → b.length = n

theorem getD_buf_length (n : Nat) (st : GState) (k : String) (h : BufLen n st) :
    ((st.geno k).getD (List.replicate n missingCode)).length = n := by
  cases hg : st.geno k with
  | none => simp
  | some b => simpa using h k b hg

theorem bufLen_gstep (names : List String) (table : String → Option Char)
    (s : GState) (r : Row) (h : BufLen (nSnpOf names) s) :
    BufLen (nSnpOf names) (gstep names table s r) := by
  intro smp b hb
  simp only [gstep] at hb
  cases hidx : snpIndexOf names (upperKey r.snpName) with
  | none =>
    rw [hidx] at hb
    simp only [updateFn] at hb
    by_cases hs : smp = r.sampleId
    · rw [if_pos hs] at hb
      cases hb
      exact getD_buf_length _ s r.sampleId h
    · rw [if_neg hs] at hb
      exact h smp b hb
  | some pos =>
    rw [hidx] at hb
    cases hdec : table (r.a1 ++ r.a2) with
    | none =>
      rw [hdec] at hb
      simp only [updateFn] at hb
      by_cases hs : smp = r.sampleId
      · rw [if_pos hs] at hb
        cases hb
        exact getD_buf_length _ s r.sampleId h
      · rw [if_neg hs] at hb
        exact h smp b hb
    | some c =>
      rw [hdec] at hb
      simp only [updateFn] at hb
      by_cases hs : smp = r.sampleId
      · rw [if_pos hs] at hb
        cases hb
        rw [List.length_set]
        exact getD_buf_length _ s r.sampleId h
      · rw [if_neg hs] at hb
        exact h smp b hb

theorem bufLen_foldl (names : List String) (table : String → Option Char) :
    ∀ (rows : List Row) (s : GState), BufLen (nSnpOf names) s →
      BufLen (nSnpOf names) (rows.foldl (gstep names table) s) := by
  intro rows
  induction rows with
  | nil => intro s h; exact h
  | cons r rest ih =>
    intro s h
    exact ih (gstep names table s r) (bufLen_gstep names table s r h)

theorem bufLen_decodeRows (names : List String) (table : String → Option Char)
    (rows : List Row) : BufLen (nSnpOf names) (decodeRows names table rows) :=
  bufLen_foldl names table rows initGState (by intro smp b hb; simp [initGState] at hb)

/-! ### Rounding lemmas -/

theorem roundHalfEven_nonneg (q : ℚ) (h : 0 ≤ q) : 0 ≤ roundHalfEven q := by
  unfold roundHalfEven
  have hf : (0 : ℤ) ≤ ⌊q⌋ := Int.floor_nonneg.mpr h
  by_cases h1 : q - (⌊q⌋ : ℚ) < 1 / 2
  · rw [if_pos h1]; exact hf
  · rw [if_neg h1]
    by_cases h2 : 1 / 2 < q - (⌊q⌋ : ℚ)
    · rw [if_pos h2]; omega
    · rw [if_neg h2]
      by_cases h3 : ⌊q⌋ % 2 = 0
      · rw [if_pos h3]; exact hf
      · rw [if_neg h3]; omega

theorem roundHalfEven_le (q : ℚ) (B : ℤ) (h : q ≤ (B : ℚ)) :
    roundHalfEven q ≤ B := by
  unfold roundHalfEven
  have hfB : ⌊q⌋ ≤ B := by
    have := Int.floor_le_floor h
    simpa using this
  by_cases heq : ⌊q⌋ = B
  · have hr : q - (⌊q⌋ : ℚ) < 1 / 2 := by
      have hq : q - (⌊q⌋ : ℚ) ≤ 0 := by
        rw [heq]
        linarith
      linarith
    rw [if_pos hr]
    exact hfB
  · have hlt : ⌊q⌋ + 1 ≤ B := by omega
    by_cases h1 : q - (⌊q⌋ : ℚ) < 1 / 2
    · rw [if_pos h1]; exact hfB
    · rw [if_neg h1]
      by_cases h2 : 1 / 2 < q - (⌊q⌋ : ℚ)
      · rw [if_pos h2]; exact hlt
      · rw [if_neg h2]
        by_cases h3 : ⌊q⌋ % 2 = 0
        · rw [if_pos h3]; exact hfB
        · rw [if_neg h3]; exact hlt

theorem round4_nonneg (q : ℚ) (h : 0 ≤ q) : 0 ≤ round4 q := by
  unfold round4
  apply div_nonneg _ (by norm_num)
  exact_mod_cast roundHalfEven_nonneg (q * 10000) (by positivity)

theorem round4_le_one (q : ℚ) (h : q ≤ 1) : round4 q ≤ 1 := by
  unfold round4
  rw [div_le_one (by norm_num)]
  have hq : q * 10000 ≤ ((10000 : ℤ) : ℚ) := by push_cast; linarith
  exact_mod_cast roundHalfEven_le (q * 10000) 10000 hq

theorem callRateOf_unit (buf : List Char) (hne : buf.length ≠ 0) :
    0 ≤ callRateOf buf ∧ callRateOf buf ≤ 1 := by
  have hpos : (0 : ℚ) < (buf.length : ℚ) := by
    exact_mod_cast Nat.pos_of_ne_zero hne
  have h0 : (0 : ℚ) ≤ ((buf.countP fun c => c != missingCode : ℕ) : ℚ) / (buf.length : ℚ) :=
    div_nonneg (by positivity) (le_of_lt hpos)
  have h1 : ((buf.countP fun c => c != missingCode : ℕ) : ℚ) / (buf.length : ℚ) ≤ 1 := by
    rw [div_le_one hpos]
    exact_mod_cast List.countP_le_length _
  exact ⟨round4_nonneg _ h0, round4_le_one _ h1⟩

/-- C7: over a map whose uppercased names are distinct (the stored-map
invariant) and nonempty, every produced record has a genotype string of
exactly the map's length, and its call rate is the non-missing count over
the map size rounded to 4 decimal places, hence lies in `[0, 1]`. -/
theorem decode_record_invariants
    (names : List String) (table : String → Option Char) (rows : List Row)
    (hnd : (names.map upperKey).Nodup) (hne : names ≠ []) :
    ∀ smp rec, recordsOf (decodeRows names table rows) smp = some rec →
      rec.genotipo.length = names.length ∧
      rec.callRate
        = round4 ((rec.genotipo.data.countP fun c => c != missingCode : ℚ)
            / (names.length : ℚ)) ∧
      0 ≤ rec.callRate ∧ rec.callRate ≤ 1 := by
  intro smp rec hrec
  unfold recordsOf at hrec
  cases hg : (decodeRows names table rows).geno smp with
  | none =>
    rw [hg] at hrec
    simp at hrec
  | some buf =>
    rw [hg] at hrec
    simp only [Option.map_some', Option.some.injEq] at hrec
    have hlen : buf.length = names.length := by
      rw [bufLen_decodeRows names table rows smp buf hg, nSnpOf_eq_length names hnd]
    have hlen0 : buf.length ≠ 0 := by
      rw [hlen]
      have := List.length_pos.mpr hne
      omega
    subst hrec
    refine ⟨?_, ?_, callRateOf_unit buf hlen0⟩
    · exact hlen
    · show callRateOf buf = _
      unfold callRateOf
      rw [hlen]

/-- Decode table used by the C7 witness: only the pair `AA` decodes. -/
def c7TableW : String → Option Char := fun p => if p = "AA" then some '0' else none

/-- The record the C7 witness run produces for sample `s`. -/
def c7RecW : GenotypeRecord := ⟨"s", callRateOf ['0'], ⟨['0']⟩⟩

theorem decode_record_invariants_witness :
    ((((["A"] : List String).map upperKey).Nodup ∧ (["A"] : List String) ≠ []) ∧
      recordsOf (decodeRows ["A"] c7TableW [⟨"A", "s", "A", "A"⟩]) "s" = some c7RecW) ∧
    (c7RecW.genotipo.length = (["A"] : List String).length ∧
      c7RecW.callRate
        = round4 ((c7RecW.genotipo.data.countP fun c => c != missingCode : ℚ)
            / ((["A"] : List String).length : ℚ)) ∧
      0 ≤ c7RecW.callRate ∧ c7RecW.callRate ≤ 1) :=
  ⟨⟨⟨by decide, by decide⟩, rfl⟩,
    decode_record_invariants ["A"] c7TableW [⟨"A", "s", "A", "A"⟩]
      (by decide) (by decide) "s" c7RecW rfl⟩

/-! ### Per-step characterization of the `genotypes` dictionary -/

theorem gstep_geno_other (names : List String) (table : String → Option Char)
    (s : GState) (r : Row) (smp : String) (hs : smp ≠ r.sampleId) :
    (gstep names table s r).geno smp = s.geno smp := by
  cases hidx : snpIndexOf names (upperKey r.snpName) with
  | none => simp [gstep, hidx, updateFn, hs]
  | some pos =>
    cases hdec : table (r.a1 ++ r.a2) with
    | none => simp [gstep, hidx, hdec, updateFn, hs]
    | some c => simp [gstep, hidx, hdec, updateFn, hs]

theorem gstep_geno_missSnp (names : List String) (table : String → Option Char)
    (s : GState) (r : Row)
    (hidx : snpIndexOf names (upperKey r.snpName) = none) :
    (gstep names table s r).geno r.sampleId
      = some ((s.geno r.sampleId).getD (List.replicate (nSnpOf names) missingCode)) := by
  simp [gstep, hidx, updateFn]

theorem gstep_geno_missPair (names : List String) (table : String → Option Char)
    (s : GState) (r : Row) (pos : Nat)
    (hidx : snpIndexOf names (upperKey r.snpName) = some pos)
    (hdec : table (r.a1 ++ r.a2) = none) :
    (gstep names table s r).geno r.sampleId
      = some ((s.geno r.sampleId).getD (List.replicate (nSnpOf names) missingCode)) := by
  simp [gstep, hidx, hdec, updateFn]

theorem gstep_geno_write (names : List String) (table : String → Option Char)
    (s : GState) (r : Row) (pos : Nat) (c : Char)
    (hidx : snpIndexOf names (upperKey r.snpName) = some pos)
    (hdec : table (r.a1 ++ r.a2) = some c) :
    (gstep names table s r).geno r.sampleId
      = some (((s.geno r.sampleId).getD (List.replicate (nSnpOf names) missingCode)).set pos c) := by
  simp [gstep, hidx, hdec, updateFn]

theorem foldl_invariant (names : List String) (table : String → Option Char)
    (P : GState → Prop) :
    ∀ (l : List Row), (∀ s r, r ∈ l → P s → P (gstep names table s r)) →
      ∀ s, P s → P (l.foldl (gstep names table) s) := by
  intro l
  induction l with
  | nil => intro _ s h; exact h
  | cons r rest ih =>
    intro hstep s h
    exact ih (fun s' r' hr' => hstep s' r' (List.mem_cons_of_mem r hr'))
      (gstep names table s r) (hstep s r (List.mem_cons_self r rest) h)

/-- C8, absent-SNP half, as a fold invariant: if no row for sample `smp`
carries (the uppercasing of) `snp`, every live buffer for `smp` keeps the
missing code at the position `snpIndexOf` assigns to `snp`. -/
theorem decode_missing_invariant
    (names : List String) (table : String → Option Char)
    (smp snp : String) (pos : Nat)
    (hnd : (names.map upperKey).Nodup)
    (hpos : snpIndexOf names snp = some pos)
    (rows : List Row)
    (habsent : ∀ r ∈ rows, r.sampleId = smp → upperKey r.snpName ≠ snp) :
    ∀ buf, (decodeRows names table rows).geno smp = some buf →
      buf.length = nSnpOf names ∧ buf[pos]? = some missingCode := by
  have hposlt : pos < nSnpOf names := snpIndexOf_lt names snp pos hpos hnd
  unfold decodeRows
  apply foldl_invariant names table
    (fun st => ∀ buf, st.geno smp = some buf →
      buf.length = nSnpOf names ∧ buf[pos]? = some missingCode)
  · intro s r hr hP buf hbuf
    by_cases hs : smp = r.sampleId
    · rw [hs] at hbuf
      have hbase : ∀ b0, (s.geno r.sampleId).getD (List.replicate (nSnpOf names) missingCode) = b0 →
          b0.length = nSnpOf names ∧ b0[pos]? = some missingCode := by
        intro b0 hb0
        cases hg : s.geno r.sampleId with
        | none =>
          rw [hg] at hb0
          simp only [Option.getD_none] at hb0
          subst hb0
          exact ⟨by simp, by simp [hposlt]⟩
        | some b =>
          rw [hg] at hb0
          simp only [Option.getD_some] at hb0
          subst hb0
          exact hP b (by rw [hs]; exact hg)
      cases hidx : snpIndexOf names (upperKey r.snpName) with
      | none =>
        rw [gstep_geno_missSnp names table s r hidx] at hbuf
        exact hbase buf (Option.some.injEq _ _ ▸ hbuf)
      | some pos' =>
        cases hdec : table (r.a1 ++ r.a2) with
        | none =>
          rw [gstep_geno_missPair names table s r pos' hidx hdec] at hbuf
          exact hbase buf (Option.some.injEq _ _ ▸ hbuf)
        | some c =>
          rw [gstep_geno_write names table s r pos' c hidx hdec] at hbuf
          have hne' : pos' ≠ pos := by
            intro hcontra
            subst hcontra
            exact habsent r hr hs.symm (lastIdx_inj (names.map upperKey) _ _ pos' hidx hpos)
          obtain ⟨hl, hm⟩ := hbase _ rfl
          have hbuf' : buf
              = ((s.geno r.sampleId).getD (List.replicate (nSnpOf names) missingCode)).set pos' c :=
            (Option.some.injEq _ _ ▸ hbuf).symm
          subst hbuf'
          refine ⟨by simpa using hl, ?_⟩
          rw [List.getElem?_set_ne hne']
          exact hm
    · rw [gstep_geno_other names table s r smp hs] at hbuf
      exact hP buf hbuf
  · intro buf hbuf
    simp [initGState] at hbuf

/-- C8, present-SNP half, as a fold invariant over the rows after the
decoding row: once the configured code sits at `snp`'s position of `smp`'s
buffer, later rows either touch other samples, other positions (map
injectivity), rewrite the same code, or leave the buffer unchanged. -/
theorem decode_written_invariant
    (names : List String) (table : String → Option Char)
    (smp snp : String) (pos : Nat) (c : Char)
    (hnd : (names.map upperKey).Nodup)
    (hpos : snpIndexOf names snp = some pos)
    (l2 : List Row)
    (hl2 : ∀ r ∈ l2, r.sampleId = smp → upperKey r.snpName = snp →
      table (r.a1 ++ r.a2) = some c)
    (s : GState)
    (hP : ∃ buf, s.geno smp = some buf ∧ buf.length = nSnpOf names ∧ buf[pos]? = some c) :
    ∃ buf, (l2.foldl (gstep names table) s).geno smp = some buf ∧
      buf.length = nSnpOf names ∧ buf[pos]? = some c := by
  have hposlt : pos < nSnpOf names := snpIndexOf_lt names snp pos hpos hnd
  apply foldl_invariant names table
    (fun st => ∃ buf, st.geno smp = some buf ∧
      buf.length = nSnpOf names ∧ buf[pos]? = some c) l2 _ s hP
  intro s' r hr hP'
  obtain ⟨buf, hbuf, hlen, hval⟩ := hP'
  by_cases hs : smp = r.sampleId
  · rw [hs] at hbuf ⊢
    have hD : (s'.geno r.sampleId).getD (List.replicate (nSnpOf names) missingCode) = buf := by
      rw [hbuf]
      rfl
    cases hidx : snpIndexOf names (upperKey r.snpName) with
    | none =>
      rw [gstep_geno_missSnp names table s' r hidx, hD]
      exact ⟨buf, rfl, hlen, hval⟩
    | some pos' =>
      cases hdec : table (r.a1 ++ r.a2) with
      | none =>
        rw [gstep_geno_missPair names table s' r pos' hidx hdec, hD]
        exact ⟨buf, rfl, hlen, hval⟩
      | some c' =>
        rw [gstep_geno_write names table s' r pos' c' hidx hdec, hD]
        by_cases hsnp : upperKey r.snpName = snp
        · have hpp : pos' = pos := by
            rw [hsnp] at hidx
            rw [hidx] at hpos
            exact (Option.some.injEq _ _ ▸ hpos)
          have hcc : c' = c := by
            have := hl2 r hr hs.symm hsnp
            rw [hdec] at this
            exact (Option.some.injEq _ _ ▸ this)
          rw [hpp, hcc]
          refine ⟨buf.set pos c, rfl, by simpa using hlen, ?_⟩
          rw [List.getElem?_set_self (by omega)]
        · have hne' : pos' ≠ pos := by
            intro hcontra
            subst hcontra
            exact hsnp (lastIdx_inj (names.map upperKey) _ _ pos' hidx hpos)
          refine ⟨buf.set pos' c', rfl, by simpa using hlen, ?_⟩
          rw [List.getElem?_set_ne hne']
          exact hval
  · rw [gstep_geno_other names table s' r smp hs]
    exact ⟨buf, hbuf, hlen, hval⟩

theorem mem_insertNew (l : List String) (s : String) : s ∈ insertNew l s := by
  unfold insertNew
  split
  · assumption
  · exact List.mem_cons_self s l

/-- C8: over a map with distinct uppercased names, for a SNP resolved by
the map at position `pos`: if exactly one row pairs sample `smp` with that
SNP and its allele pair decodes, the sample's buffer holds the configured
code at `pos`; if no row for `smp` mentions the SNP, any buffer produced
for `smp` holds the missing code at `pos`. -/
theorem decode_roundTrip
    (names : List String) (table : String → Option Char) (rows : List Row)
    (smp snp : String) (pos : Nat)
    (hnd : (names.map upperKey).Nodup)
    (hpos : snpIndexOf names snp = some pos) :
    ((∀ r ∈ rows, r.sampleId = smp → upperKey r.snpName ≠ snp) →
      ∀ buf, (decodeRows names table rows).geno smp = some buf →
        buf[pos]? = some missingCode) ∧
    (∀ r0, r0 ∈ rows → r0.sampleId = smp → upperKey r0.snpName = snp →
      (∀ r ∈ rows, r.sampleId = smp → upperKey r.snpName = snp → r = r0) →
      ∀ c, table (r0.a1 ++ r0.a2) = some c →
        ∃ buf, (decodeRows names table rows).geno smp = some buf ∧
          buf[pos]? = some c) := by
  constructor
  · intro habsent buf hbuf
    exact (decode_missing_invariant names table smp snp pos hnd hpos rows habsent buf hbuf).2
  · intro r0 hr0 hsmp hsnp huniq c htab
    obtain ⟨l1, l2, rfl⟩ := List.append_of_mem hr0
    unfold decodeRows
    rw [List.foldl_append, List.foldl_cons]
    have hbl : BufLen (nSnpOf names) (l1.foldl (gstep names table) initGState) :=
      bufLen_foldl names table l1 initGState (by intro a b hb; simp [initGState] at hb)
    have hw := gstep_geno_write names table (l1.foldl (gstep names table) initGState) r0 pos c
      (by rw [hsnp]; exact hpos) htab
    have hstart : ∃ buf,
        (gstep names table (l1.foldl (gstep names table) initGState) r0).geno smp = some buf ∧
        buf.length = nSnpOf names ∧ buf[pos]? = some c := by
      refine ⟨(((l1.foldl (gstep names table) initGState).geno r0.sampleId).getD
        (List.replicate (nSnpOf names) missingCode)).set pos c, ?_, ?_, ?_⟩
      · rw [← hsmp]
        exact hw
      · rw [List.length_set]
        exact getD_buf_length _ _ r0.sampleId hbl
      · rw [List.getElem?_set_self]
        rw [getD_buf_length _ _ r0.sampleId hbl]
        exact snpIndexOf_lt names snp pos hpos hnd
    have hl2cond : ∀ r ∈ l2, r.sampleId = smp → upperKey r.snpName = snp →
        table (r.a1 ++ r.a2) = some c := by
      intro r hr hrs hrsnp
      have hrr : r = r0 := huniq r (by simp [hr]) hrs hrsnp
      rw [hrr]
      exact htab
    obtain ⟨buf, h1, _, h3⟩ :=
      decode_written_invariant names table smp snp pos c hnd hpos l2 hl2cond _ hstart
    exact ⟨buf, h1, h3⟩

theorem decode_roundTrip_witness :
    (((["A", "B"] : List String).map upperKey).Nodup ∧
      snpIndexOf ["A", "B"] "B" = some 1) ∧
    (((∀ r ∈ ([⟨"A", "s", "A", "A"⟩] : List Row), r.sampleId = "s" →
        upperKey r.snpName ≠ "B") →
      ∀ buf, (decodeRows ["A", "B"] c7TableW [⟨"A", "s", "A", "A"⟩]).geno "s" = some buf →
        buf[1]? = some missingCode) ∧
    (∀ r0, r0 ∈ ([⟨"A", "s", "A", "A"⟩] : List Row) → r0.sampleId = "s" →
      upperKey r0.snpName = "B" →
      (∀ r ∈ ([⟨"A", "s", "A", "A"⟩] : List Row), r.sampleId = "s" →
        upperKey r.snpName = "B" → r = r0) →
      ∀ c, c7TableW (r0.a1 ++ r0.a2) = some c →
        ∃ buf, (decodeRows ["A", "B"] c7TableW [⟨"A", "s", "A", "A"⟩]).geno "s" = some buf ∧
          buf[1]? = some c)) :=
  ⟨⟨by decide, by decide⟩,
    decode_roundTrip ["A", "B"] c7TableW [⟨"A", "s", "A", "A"⟩] "s" "B" 1
      (by decide) (by decide)⟩

/-- C10: when a row's SNP name is resolved by the map but its allele pair
is absent from the decode table, the `KeyError` of
Genotype_Map_Flow.py line 225 is caught by the handler of lines 226-227:
the (uppercased) SNP name is added to the not-in-map set
`snp_finalrep_not` although it is in the map, and the sample's buffer is
left unchanged — all missing codes when the sample was first seen on this
row. -/
theorem decode_pairMiss_flags_mapped_snp
    (names : List String) (table : String → Option Char) (st : GState) (r : Row)
    (pos : Nat)
    (hpos : snpIndexOf names (upperKey r.snpName) = some pos)
    (hdec : table (r.a1 ++ r.a2) = none) :
    upperKey r.snpName ∈ (gstep names table st r).repNot ∧
    (gstep names table st r).geno r.sampleId
      = some ((st.geno r.sampleId).getD (List.replicate (nSnpOf names) missingCode)) ∧
    (st.geno r.sampleId = none →
      (gstep names table st r).geno r.sampleId
        = some (List.replicate (nSnpOf names) missingCode)) := by
  refine ⟨?_, gstep_geno_missPair names table st r pos hpos hdec, ?_⟩
  · have hrn : (gstep names table st r).repNot
        = insertNew st.repNot (upperKey r.snpName) := by
      simp [gstep, hpos, hdec]
    rw [hrn]
    exact mem_insertNew _ _
  · intro hnone
    rw [gstep_geno_missPair names table st r pos hpos hdec, hnone]
    rfl

theorem decode_pairMiss_flags_mapped_snp_witness :
    (snpIndexOf ["S1"] (upperKey "s1") = some 0 ∧
      (fun (_ : String) => (none : Option Char)) ("A" ++ "A") = none) ∧
    (upperKey "s1" ∈
      (gstep ["S1"] (fun _ => none) initGState ⟨"s1", "samp", "A", "A"⟩).repNot ∧
    (gstep ["S1"] (fun _ => none) initGState ⟨"s1", "samp", "A", "A"⟩).geno "samp"
      = some ((initGState.geno "samp").getD (List.replicate (nSnpOf ["S1"]) missingCode)) ∧
    (initGState.geno "samp" = none →
      (gstep ["S1"] (fun _ => none) initGState ⟨"s1", "samp", "A", "A"⟩).geno "samp"
        = some (List.replicate (nSnpOf ["S1"]) missingCode))) :=
  ⟨⟨by decide, rfl⟩,
    decode_pairMiss_flags_mapped_snp ["S1"] (fun _ => none) initGState
      ⟨"s1", "samp", "A", "A"⟩ 0 (by decide) rfl⟩

/-! ### Job state machine (`src/upload_file.py`)

The main loop (lines 263-1090) polls `GEN.Code_Caricamenti`, keeps rows
with `bit_elaborato == 0`, sorts them with
`sort_values(by=['Nume_Cari', 'Data_Cari'])` (line 306), and walks the
resulting ids.  For each job, line 325 opens the job's archive *outside
any `try`* to cross-check the declared kind against a `[Header]` first
line (lines 325-352); a mismatch ends the job with the `c_A` status
write.  A Genotype job then scans the archive once per candidate
separator (lines 531-594): a `BadZipFile`/other exception is caught
(Case31/33) into `criticalError` — which writes
`aggiorna_bit(…, 0, 0, text)` (lines 155-158), i.e. `Bit_elaborato = 0` —
and sets `hasError`; a multi-member archive assigns the `g_H` code and
sets `hasMoreFiles` (lines 578-581).  After the scan, `hasError` aborts
the job's iteration (lines 596-598) and `hasMoreFiles` writes a
parameter-file outcome and `continue`s (lines 600-606) — in both cases
before the terminal `aggiorna_bit` of line 1069.  The deep pipelines
behind a successful scan (map subprocess, genotype subprocess) are passed
in as the `mRest`/`gRest` results; they are modelled separately above. -/

/-- `Tipo_Cari ∈ {M, G}`. -/
inductive JobKind
  | M
  | G
  deriving Repr, DecidableEq

/-- What opening a job's archive yields: `missing` raises
`FileNotFoundError`, `badZip` raises `zipfile.BadZipFile`, `members`
lists each member file's lines. -/
inductive ArchiveData
  | missing
  | badZip
  | members (ms : List (List String))
  deriving Repr, DecidableEq

/-- One `aggiorna_bit` update: `(Bit_OK, Bit_elaborato, Errori_elab)`
(upload_file.py lines 252-260). -/
structure TermWrite where
  bitOK : Int
  bitElaborato : Int
  diagnosticText : String
  deriving Repr, DecidableEq

/-- An exception that escapes every handler of the secondary job loop. -/
inductive StructErr
  | uncaughtOpen
  deriving Repr, DecidableEq

/-- Python `str.strip()`. -/
def pyStrip (s : String) : String :=
  ⟨((s.data.dropWhile fun c => c.isWhitespace).reverse.dropWhile fun c =>
      c.isWhitespace).reverse⟩

/-- The job-table write `criticalError` performs (lines 144-160): it
writes `aggiorna_bit(…, 0, 0, msg_elab.strip() or c_B-text)` unless
`msg_elab` equals the configured `DATABASE_ERROR` message. -/
def criticalWrite (msgElab cB dbMsg : String) : Option TermWrite :=
  if msgElab == dbMsg then none
  else some ⟨0, 0, if pyStrip msgElab == "" then cB else pyStrip msgElab⟩

/-- The separator scan of lines 531-594, returning
`(hasError, hasMoreFiles)`.  Each candidate separator re-opens the same
archive: an open failure is caught (Case31/33), sets `hasError` and
breaks; a multi-member archive assigns `g_H`, sets `hasMoreFiles` and
moves to the next separator; a single-member archive is parsed (the
per-line parse of a readable member completes here). -/
def sepScan (arch : ArchiveData) : List String → Bool → Bool × Bool
  | [], hmf => (false, hmf)
  | _ :: rest, hmf =>
    match arch with
    | .missing => (true, hmf)
    | .badZip => (true, hmf)
    | .members ms =>
      if ms.length == 1 then sepScan arch rest hmf
      else sepScan arch rest true

/-- Python `line.startswith(marker)`. -/
def lineStarts (line marker : String) : Bool := startsList marker.data line.data

/-- The kind cross-check of lines 331-352, performed only when the
archive has exactly one member (a multi-member archive skips it: the
`if len(file_list) == 1` of line 327 has no `else`). -/
def classifyMismatch (kind : JobKind) (ms : List (List String)) : Bool :=
  ms.length == 1 &&
    (match kind with
     | .M => lineStarts ((ms.headD []).headD "") "[Header]"
     | .G => !lineStarts ((ms.headD []).headD "") "[Header]")

/-- One pass of the secondary loop body for one job, returning the
job-table write it performs (`none` = no `aggiorna_bit` reached) or the
uncaught exception it raises.  `cA` is the configured `c_A` mismatch
status, `mRest`/`gRest` stand for the map/genotype pipelines entered
after a clean scan (they may themselves raise: the post-scan region has
further unguarded code). -/
def processJob (cA : TermWrite) (cB dbMsg : String) (seps : List String)
    (mRest gRest : Except StructErr (Option TermWrite))
    (kind : JobKind) (arch : ArchiveData) : Except StructErr (Option TermWrite) :=
  match arch with
  | .missing => .error .uncaughtOpen
  | .badZip => .error .uncaughtOpen
  | .members ms =>
    if classifyMismatch kind ms then .ok (some cA)
    else
      match kind with
      | .M => mRest
      | .G =>
        match sepScan (.members ms) seps false with
        | (true, _) => .ok (criticalWrite "" cB dbMsg)
        | (false, true) => .ok none
        | (false, false) => gRest

/-- One polled row: id, kind and the archive its file name resolves to. -/
structure BatchJob where
  id : Nat
  kind : JobKind
  arch : ArchiveData
  deriving Repr, DecidableEq

/-- The secondary loop over one poll batch: jobs are processed in order;
an uncaught exception propagates out of the `for` (there is no enclosing
handler, so it also terminates the polling loop).  On success the list of
processed job ids is returned. -/
def processBatch (cA : TermWrite) (cB dbMsg : String) (seps : List String)
    (mRest gRest : Except StructErr (Option TermWrite)) :
    List BatchJob → Except StructErr (List Nat)
  | [] => .ok []
  | j :: rest =>
    match processJob cA cB dbMsg seps mRest gRest j.kind j.arch with
    | .error e => .error e
    | .ok _ =>
      match processBatch cA cB dbMsg seps mRest gRest rest with
      | .error e => .error e
      | .ok ids => .ok (j.id :: ids)

/-- One row of the poll result, as sorted by line 306. -/
structure PollJob where
  numeCari : Nat
  dataCari : Nat
  deriving Repr, DecidableEq

/-- The key order of `sort_values(by=['Nume_Cari', 'Data_Cari'])`:
job id first, submission date as tie-breaker. -/
def pollLE (a b : PollJob) : Prop :=
  a.numeCari < b.numeCari ∨ (a.numeCari = b.numeCari ∧ a.dataCari ≤ b.dataCari)

instance : DecidableRel pollLE := fun a b => by
  unfold pollLE
  infer_instance

instance : IsTotal PollJob pollLE := ⟨by
  intro a b
  unfold pollLE
  omega⟩

instance : IsTrans PollJob pollLE := ⟨by
  intro a b c
  unfold pollLE
  omega⟩

/-- The processing order of a poll batch (ties carry identical keys, so
the sort algorithm's tie order is immaterial). -/
def pollOrder (jobs : List PollJob) : List PollJob :=
  List.insertionSort pollLE jobs

/-- The order the claim asserts, from the spec's words: ascending
`(submittedAt, id)`. -/
def specClaimOrder (a b : PollJob) : Prop :=
  a.dataCari < b.dataCari ∨ (a.dataCari = b.dataCari ∧ a.numeCari ≤ b.numeCari)

instance : DecidableRel specClaimOrder := fun a b => by
  unfold specClaimOrder
  infer_instance

/-! ### Claims C3, C4, C5, C6 -/

theorem sepScan_members_multi (ms : List (List String))
    (hms : (ms.length == 1) = false) :
    ∀ (seps : List String) (hmf : Bool), seps ≠ [] →
      sepScan (.members ms) seps hmf = (false, true) := by
  intro seps
  induction seps with
  | nil => intro hmf h; exact absurd rfl h
  | cons s rest ih =>
    intro hmf _
    rw [sepScan]
    simp only [hms, Bool.false_eq_true, if_false, ite_false]
    cases rest with
    | nil => rfl
    | cons s2 r2 => exact ih true (by simp)

/-- C3: a Genotype job with a multi-member archive performs *no*
job-table write at all: the `hasMoreFiles` branch (upload_file.py
lines 600-606) `continue`s to the next job before ever reaching the
`aggiorna_bit` call of line 1069, so `Bit_elaborato` stays 0 and the job
is re-polled, contradicting the claimed terminal write with a non-zero
processed bit. -/
theorem genotype_multiMember_no_terminal_write
    (cA : TermWrite) (cB dbMsg : String) (seps : List String)
    (mRest gRest : Except StructErr (Option TermWrite))
    (ms : List (List String))
    (hseps : seps ≠ []) (hms : 1 < ms.length) :
    processJob cA cB dbMsg seps mRest gRest .G (.members ms) = .ok none := by
  have h1 : (ms.length == 1) = false := by
    simp only [beq_eq_false_iff_ne, ne_eq]
    omega
  have hcm : classifyMismatch .G ms = false := by
    unfold classifyMismatch
    rw [h1]
    rfl
  simp only [processJob, hcm, Bool.false_eq_true, if_false, ite_false,
    sepScan_members_multi ms h1 seps false hseps]

theorem genotype_multiMember_no_terminal_write_witness :
    (([";"] : List String) ≠ [] ∧ 1 < ([["a"], ["b"]] : List (List String)).length) ∧
    processJob ⟨1, 1, "ok"⟩ "cB" "db" [";"] (.ok none) (.ok none) .G
      (.members [["a"], ["b"]]) = .ok none :=
  ⟨⟨by decide, by decide⟩,
    genotype_multiMember_no_terminal_write ⟨1, 1, "ok"⟩ "cB" "db" [";"]
      (.ok none) (.ok none) [["a"], ["b"]] (by decide) (by decide)⟩

/-- C4 counterexample: a missing/corrupt archive raises at the unguarded
`zipfile.ZipFile` open of upload_file.py line 325; nothing in the
secondary loop catches it, so the whole batch — and with it the polling
loop — dies, and the second job of the batch is never processed (the same
batch without the poisoned job completes and processes it). -/
theorem job_error_kills_batch :
    processBatch ⟨1, 1, "ok"⟩ "cB" "db" [";"] (.ok none) (.ok none)
      [⟨7, .G, .missing⟩, ⟨8, .G, .members [["[Header]", "line"]]⟩]
      = .error .uncaughtOpen ∧
    processBatch ⟨1, 1, "ok"⟩ "cB" "db" [";"] (.ok none) (.ok none)
      [⟨8, .G, .members [["[Header]", "line"]]⟩] = .ok [8] := by
  constructor
  · rfl
  · rfl

/-- Amended C4: a structural error *handled* inside a job (kind
mismatch, multi-member archive, guarded scan failure) aborts only that
job; indeed any batch whose jobs all have openable archives and whose
deep pipelines complete is processed to the end, every job advanced past.
But an archive that fails to open at the classification step of line 325
raises an uncaught error that terminates the polling loop itself. -/
theorem batch_advances_over_openable_jobs
    (cA : TermWrite) (cB dbMsg : String) (seps : List String)
    (wm wg : Option TermWrite) (jobs : List BatchJob)
    (hopen : ∀ j ∈ jobs, ∃ ms, j.arch = .members ms) :
    processBatch cA cB dbMsg seps (.ok wm) (.ok wg) jobs
      = .ok (jobs.map fun j => j.id) := by
  induction jobs with
  | nil => rfl
  | cons j rest ih =>
    obtain ⟨ms, hms⟩ := hopen j (List.mem_cons_self j rest)
    have hj : ∃ w, processJob cA cB dbMsg seps (.ok wm) (.ok wg) j.kind j.arch
        = .ok w := by
      rw [hms]
      cases hk : j.kind with
      | M =>
        cases hcm : classifyMismatch JobKind.M ms with
        | true => exact ⟨some cA, by simp [processJob, hcm]⟩
        | false => exact ⟨wm, by simp [processJob, hcm]⟩
      | G =>
        cases hcm : classifyMismatch JobKind.G ms with
        | true => exact ⟨some cA, by simp [processJob, hcm]⟩
        | false =>
          rcases hscan : sepScan (.members ms) seps false with ⟨he, hm2⟩
          cases he
          · cases hm2
            · exact ⟨wg, by simp [processJob, hcm, hscan]⟩
            · exact ⟨none, by simp [processJob, hcm, hscan]⟩
          · exact ⟨criticalWrite "" cB dbMsg, by simp [processJob, hcm, hscan]⟩
    obtain ⟨w, hw⟩ := hj
    have hrest := ih fun j' hj' => hopen j' (List.mem_cons_of_mem j hj')
    simp only [processBatch, hw, hrest, List.map_cons]

theorem batch_advances_witness :
    (∀ j ∈ ([⟨3, .M, .members [["Index;Name"]]⟩,
      ⟨4, .G, .members [["x"], ["y"]]⟩] : List BatchJob), ∃ ms, j.arch = .members ms) ∧
    processBatch ⟨1, 1, "ok"⟩ "cB" "db" [";"] (.ok none) (.ok none)
      ([⟨3, .M, .members [["Index;Name"]]⟩, ⟨4, .G, .members [["x"], ["y"]]⟩] :
        List BatchJob)
      = .ok (([⟨3, .M, .members [["Index;Name"]]⟩,
          ⟨4, .G, .members [["x"], ["y"]]⟩] : List BatchJob).map fun j => j.id) :=
  ⟨by
    intro j hj
    rcases List.mem_cons.mp hj with h | hj2
    · exact ⟨[["Index;Name"]], by rw [h]⟩
    · rcases List.mem_cons.mp hj2 with h | h
      · exact ⟨[["x"], ["y"]], by rw [h]⟩
      · exact absurd h (List.not_mem_nil j),
    batch_advances_over_openable_jobs ⟨1, 1, "ok"⟩ "cB" "db" [";"] none none
      [⟨3, .M, .members [["Index;Name"]]⟩, ⟨4, .G, .members [["x"], ["y"]]⟩]
      (by
        intro j hj
        rcases List.mem_cons.mp hj with h | hj2
        · exact ⟨[["Index;Name"]], by rw [h]⟩
        · rcases List.mem_cons.mp hj2 with h | h
          · exact ⟨[["x"], ["y"]], by rw [h]⟩
          · exact absurd h (List.not_mem_nil j))⟩

/-- C5 counterexample: two pending jobs, id 1 submitted at time 10 and
id 2 submitted at time 5.  The claimed `(submittedAt, id)` order would
process id 2 first; the code's `sort_values(by=['Nume_Cari',
'Data_Cari'])` (upload_file.py line 306) processes id 1 first. -/
theorem pollOrder_not_by_submittedAt :
    pollOrder [⟨1, 10⟩, ⟨2, 5⟩] = [⟨1, 10⟩, ⟨2, 5⟩] ∧
    ¬ List.Sorted specClaimOrder (pollOrder [⟨1, 10⟩, ⟨2, 5⟩]) := by
  constructor
  · rfl
  · decide

/-- Amended C5: within a poll batch, pending jobs are processed in
ascending `(id, submittedAt)` order — `Nume_Cari` is the primary key and
`Data_Cari` the tie-breaker — and the processed batch is a permutation of
the pending set. -/
theorem pollOrder_sorted_by_id (jobs : List PollJob) :
    List.Sorted pollLE (pollOrder jobs) ∧ (pollOrder jobs).Perm jobs :=
  ⟨List.sorted_insertionSort pollLE jobs, List.perm_insertionSort pollLE jobs⟩

/-- C6: none of the three `FormatError` situations yields a terminal
write with a non-zero processed bit.  An unreadable archive raises at the
unguarded classification open (line 325) and kills the run outright; a
multi-member archive ends the job with no job-table write at all; and
even the in-scan `BadZipFile` handler (Case31) would write through
`criticalError`, whose `aggiorna_bit(…, 0, 0, …)` leaves
`Bit_elaborato = 0`, so the job would be re-polled. -/
theorem formatError_not_terminal :
    processJob ⟨1, 1, "ok"⟩ "cBtext" "dbError" [";"] (.ok none) (.ok none) .G .badZip
      = .error .uncaughtOpen ∧
    processJob ⟨1, 1, "ok"⟩ "cBtext" "dbError" [";"] (.ok none) (.ok none) .G
      (.members [["SNP Name"], ["extra"]]) = .ok none ∧
    criticalWrite "" "cBtext" "dbError" = some ⟨0, 0, "cBtext"⟩ := by
  refine ⟨rfl, rfl, ?_⟩
  rfl

end GenomicArchive
